import Mathlib

/-!
# Pruning thresholds and adjusted counts in `lmplz` (kenlm language-model builder)

A shallow embedding of `parse_pruning_parameter` from
`lm/builder/lmplz_main.cc`, together with the two Boost library routines it
calls (`boost::split` with `token_compress_on` and
`boost::lexical_cast<uint64_t>`), and of the adjustment engine declared in
`lm/builder/adjust_counts.hh`, followed by the properties of the threshold
vector the parser returns or rejects and of the counts and discounts the
engine produces.
-/

namespace KenLM

/-! ## Boost library routines used by the parser -/

/-- Predicate built by `boost::is_any_of(set)`: true exactly on the characters of `set`. -/
def is_any_of (set : List Char) (c : Char) : Bool :=
  set.contains c

/-- Tokens produced by `boost::split(result, input, pred, boost::token_compress_on)`.

The Boost split iterator yields the text before the first separator, then
the text between consecutive separator runs, then the text after the last
separator; with `token_compress_on` a maximal run of adjacent separators
counts as one separator.  An empty input yields one empty token, and a
separator at the very start (end) of the input yields an empty first (last)
token.  A separator that is followed by another separator is skipped, the
last separator of a run closes the current token. -/
def split (pred : Char → Bool) : List Char → List (List Char)
  | [] => [[]]
  | c :: cs =>
    if pred c then
      match cs with
      | [] => [[], []]
      | d :: _ => if pred d then split pred cs else [] :: split pred cs
    else
      match split pred cs with
      | [] => [[c]]
      | tok :: toks => (c :: tok) :: toks

/-- The C string seen through `std::string::c_str()`: the characters before the first NUL. -/
def c_str (s : List Char) : List Char :=
  s.takeWhile (fun c => c != Char.ofNat 0)

/-- Largest value of `uint64_t`. -/
def UINT64_MAX : Nat := 2 ^ 64 - 1

/-- Value of a run of decimal digits read left to right starting from `acc`;
`none` as soon as a character is not one of `0`..`9`. -/
def digits_value : List Char → Nat → Option Nat
  | [], acc => some acc
  | c :: cs, acc =>
    if c.isDigit then digits_value cs (acc * 10 + (c.toNat - 48)) else none

/-- Unsigned conversion loop of `boost::lexical_cast` (`lcast_ret_unsigned`):
succeeds on a non-empty run of decimal digits whose value fits in 64 bits
(leading zeros allowed), fails on an empty run, on a non-digit and on
overflow. -/
def lcast_ret_unsigned (ds : List Char) : Option Nat :=
  match ds with
  | [] => none
  | _ :: _ =>
    match digits_value ds 0 with
    | none => none
    | some v => if v ≤ UINT64_MAX then some v else none

/-- Result of `boost::lexical_cast<uint64_t>(token.c_str())`; `none` stands for
`boost::bad_lexical_cast`.  One optional leading sign is accepted before
the digits; after a minus sign the parsed value is negated modulo `2 ^ 64`,
as the unsigned extraction of Boost (and of C `strtoull`) does. -/
def lexical_cast_uint64 (token : List Char) : Option Nat :=
  match c_str token with
  | [] => none
  | c :: cs =>
    if c = '-' then
      (lcast_ret_unsigned cs).map (fun v => (2 ^ 64 - v) % 2 ^ 64)
    else if c = '+' then lcast_ret_unsigned cs
    else lcast_ret_unsigned (c :: cs)

/-! ## `parse_pruning_parameter` (lmplz_main.cc, lines 132-172) -/

/-- Message thrown when a token does not convert (line 146). -/
def msg_nonnegative : String :=
  "Pruning counts threshold has to be nonnegative numbers"

/-- Message thrown when the number of thresholds differs from the order (line 153). -/
def msg_each_order : String :=
  "Incorrect use of pruning option. Set pruning threshold for each order n-grams."

/-- Message thrown when the unigram threshold is not zero (line 155). -/
def msg_unigrams : String :=
  "You are not allowed to prune unigrams. Set counts_threshold to 0 for unigrams."

/-- Message thrown when a threshold is lower than the preceding one (line 161). -/
def msg_decreasing : String :=
  "Pruning counts threshold for lower n-grams are not allowed to be specified higher than for higher order n-grams"

/-- Conversion loop of lines 141-147: every token is converted in order and
pushed on `counts_threshold`; the first token that does not convert throws
`util::Exception`. -/
def convert_thresholds : List (List Char) → Except String (List Nat)
  | [] => .ok []
  | tok :: toks =>
    match lexical_cast_uint64 tok with
    | none => .error msg_nonnegative
    | some count =>
      match convert_thresholds toks with
      | .error e => .error e
      | .ok counts => .ok (count :: counts)

/-- Loop of lines 158-163: `lower_threshold` starts at the given value, every
element must be at least `lower_threshold` and then becomes it.  Returns
`false` where the source throws. -/
def thresholds_not_decreasing : Nat → List Nat → Bool
  | _, [] => true
  | lower_threshold, t :: ts =>
    if lower_threshold > t then false else thresholds_not_decreasing t ts

/-- The function `parse_pruning_parameter(param, order)`: `.error msg` stands for a
thrown `util::Exception` with that message, `.ok v` for the returned vector. -/
def parse_pruning_parameter (param : String) (order : Nat) : Except String (List Nat) :=
  let pruning_thresholds := split (is_any_of [',', ' ']) param.toList
  match convert_thresholds pruning_thresholds with
  | .error e => .error e
  | .ok counts_threshold =>
    if counts_threshold.length > 0 then
      if counts_threshold.length ≠ order then .error msg_each_order
      else if counts_threshold.headD 0 ≠ 0 then .error msg_unigrams
      else if thresholds_not_decreasing 0 counts_threshold then .ok counts_threshold
      else .error msg_decreasing
    else
      .ok (List.replicate order 0)

/-! ## The part of `main` from the threshold parsing on (lmplz_main.cc, lines 96-129) -/

/-- How a call of `lm::builder::Pipeline` ends, as far as `main` can tell. -/
inductive PipelineResult where
  | finished
  | malloc_exception
  | other_exception
  deriving DecidableEq

/-- What `main` did: whether `lm::builder::Pipeline` was called, with which
thresholds, and the exit status. -/
structure MainOutcome where
  pipeline_started : Bool
  counts_threshold : Option (List Nat)
  exit_code : Nat
  deriving DecidableEq

/-- Lines 96-129 of `main`, after the options are read: the thresholds are
parsed first; a thrown exception reaches the outer `catch` and `main`
returns 1.  Otherwise the input and output files are opened (`files_ok`
tells whether `OpenReadOrThrow` and `CreateOrThrow` succeed) and only then
`Pipeline` is called; `pipeline` gives the way that call ends. -/
def main_after_options (pruning_param : String) (order : Nat) (files_ok : Bool)
    (pipeline : List Nat → PipelineResult) : MainOutcome :=
  match parse_pruning_parameter pruning_param order with
  | .error _ => { pipeline_started := false, counts_threshold := none, exit_code := 1 }
  | .ok counts_threshold =>
    if files_ok then
      match pipeline counts_threshold with
      | .finished =>
        { pipeline_started := true, counts_threshold := some counts_threshold, exit_code := 0 }
      | .malloc_exception =>
        { pipeline_started := true, counts_threshold := some counts_threshold, exit_code := 1 }
      | .other_exception =>
        { pipeline_started := true, counts_threshold := some counts_threshold, exit_code := 1 }
    else
      { pipeline_started := false, counts_threshold := some counts_threshold, exit_code := 1 }

/-! ## The adjustment engine `AdjustCounts::Run`

`adjust_counts.hh` only declares `AdjustCounts::Run`; its body
(`adjust_counts.cc`) and the discount computation (`discount.hh`) are not part
of the sources at hand, so the engine below follows the written design:
sections 3, 4.1, 4.2 and 4.3 of the specification. -/

/-- Modelled from the spec: the `NGramRecord` of section 3 (its declaration is not in
the sources): the word indices of an n-gram and an unsigned count. -/
structure NGramRecord where
  words : List Nat
  count : Nat
  deriving DecidableEq

/-- Modelled from the spec: a record as the engine leaves it in the stream of its
order (the record type is not in the sources): the words, the count written
(adjusted below order N, raw at order N) and whether the pruning filter dropped
it. -/
structure WrittenRecord where
  words : List Nat
  count : Nat
  pruned : Bool
  deriving DecidableEq

/-- Modelled from the spec: the count-of-counts histogram of section 4.2 (its type is
not in the sources): how many written counts are 1, 2, 3 and at least 4. -/
structure Histogram where
  n1 : Nat
  n2 : Nat
  n3 : Nat
  n4 : Nat
  deriving DecidableEq

/-- Modelled from the spec: step 4 of section 4.1 (the statistics collector is not in
the sources): an emitted count increments the bucket of its value. -/
def Histogram.add (h : Histogram) (c : Nat) : Histogram :=
  if c = 1 then { h with n1 := h.n1 + 1 }
  else if c = 2 then { h with n2 := h.n2 + 1 }
  else if c = 3 then { h with n3 := h.n3 + 1 }
  else if 4 ≤ c then { h with n4 := h.n4 + 1 }
  else h

/-- Modelled from the spec: the pruning filter of section 4.3 (its code is not in the
sources): a record is dropped when its count is at most the threshold of its
order, and a threshold of 0 never prunes. -/
def pruned_by (threshold count : Nat) : Bool :=
  decide (threshold ≠ 0 ∧ count ≤ threshold)

/-- Modelled from the spec: the state slot the engine keeps for one order (section
4.1 and the design notes; the engine body is not in the sources).  `current`
holds the current suffix buffer with the distinct extension words seen so far
for it, the pending accumulator being their number; `written`, `histogram`,
`count` and `count_pruned` are the stream, histogram, CountsVector entry and
CountsPrunedVector entry of the order. -/
structure OrderSlot where
  order : Nat
  threshold : Nat
  current : Option (List Nat × List Nat)
  written : List WrittenRecord
  histogram : Histogram
  count : Nat
  count_pruned : Nat
  deriving DecidableEq

/-- Modelled from the spec: the record an order writes for a finished word sequence
with count `c` (step 3 of section 4.1 and section 4.3; the engine body is not
in the sources): pruning is applied at once against the threshold of the
order. -/
def OrderSlot.finished (s : OrderSlot) (words : List Nat) (c : Nat) : WrittenRecord :=
  { words := words, count := c, pruned := pruned_by s.threshold c }

/-- Modelled from the spec: emission of a finished record (steps 3 and 4 of section
4.1; the engine body is not in the sources): the count is written, and a pruned
record is left out of CountsPrunedVector but still counted in CountsVector and
in the histogram. -/
def OrderSlot.emit (s : OrderSlot) (words : List Nat) (c : Nat) : OrderSlot :=
  { s with
    written := s.written ++ [s.finished words c]
    histogram := s.histogram.add c
    count := s.count + 1
    count_pruned := if pruned_by s.threshold c then s.count_pruned else s.count_pruned + 1 }

/-- Modelled from the spec: steps 1 to 3 of section 4.1 for one order `k < N` (the
engine body is not in the sources).  `cur` is the current order-(k+1) record,
an extension word followed by a k-word suffix.  An unchanged suffix adds the
extension word when it differs from all those seen for this suffix; a changed
suffix emits the finished suffix with the accumulator as adjusted count and
resets the buffer to the new suffix with accumulator 1.  The result is the
new slot and the record emitted, if any. -/
def OrderSlot.advance (s : OrderSlot) (cur : List Nat) : OrderSlot × Option WrittenRecord :=
  match cur with
  | [] => (s, none)
  | ext :: suf =>
    match s.current with
    | none => ({ s with current := some (suf, [ext]) }, none)
    | some (buf, seen) =>
      if suf = buf then
        if ext ∈ seen then (s, none) else ({ s with current := some (buf, ext :: seen) }, none)
      else
        ({ s.emit buf seen.length with current := some (suf, [ext]) },
          some (s.finished buf seen.length))

/-- Modelled from the spec: end of the stream of an order (sections 4.1 and 4.4; the
engine body is not in the sources): the pending suffix is finished and
emitted.  The result is the new slot and the record emitted, if any. -/
def OrderSlot.finish (s : OrderSlot) : OrderSlot × Option WrittenRecord :=
  match s.current with
  | none => (s, none)
  | some (buf, seen) =>
    ({ s.emit buf seen.length with current := none }, some (s.finished buf seen.length))

/-- Modelled from the spec: what an emitted record hands to the next lower order
(section 4.3; the engine body is not in the sources): a dropped record does not
seed a continuation count, a surviving record is the next current record of the
order below. -/
def handed_down : Option WrittenRecord → List (List Nat)
  | none => []
  | some g => if g.pruned then [] else [g.words]

/-- Modelled from the spec: one order consuming the surviving records of the order
above, in stream order (sections 4.1 and 4.3; the engine body is not in the
sources); the result is the new slot and the surviving records it hands
down. -/
def OrderSlot.feed : OrderSlot → List (List Nat) → OrderSlot × List (List Nat)
  | s, [] => (s, [])
  | s, cur :: curs =>
    ((OrderSlot.feed (s.advance cur).1 curs).1,
      handed_down (s.advance cur).2 ++ (OrderSlot.feed (s.advance cur).1 curs).2)

/-- Modelled from the spec: the lower orders, highest first, advanced in lockstep
(step 1 of section 4.1 and section 4.3; the engine body is not in the sources):
each order consumes what the order above hands down and hands its own
surviving finished records to the order below, so that a pruning decision is
applied before the accumulator of the next lower order is finalised. -/
def lower_feed : List OrderSlot → List (List Nat) → List OrderSlot
  | [], _ => []
  | s :: rest, curs => (s.feed curs).1 :: lower_feed rest (s.feed curs).2

/-- Modelled from the spec: end of the order-N stream (sections 4.1 and 4.4; the
engine body is not in the sources): from the highest lower order down, each
order consumes what is still handed to it, finishes its pending suffix and
hands the surviving records down. -/
def lower_finish : List OrderSlot → List (List Nat) → List OrderSlot
  | [], _ => []
  | s :: rest, curs =>
    ((s.feed curs).1.finish).1 ::
      lower_finish rest ((s.feed curs).2 ++ handed_down ((s.feed curs).1.finish).2)

/-- Modelled from the spec: the state of the single pass (section 4.1 and the design
notes; the engine body is not in the sources): the slots of the orders N-1
down to 1, advanced in lockstep, and the statistics of order N. -/
structure EngineState where
  lower : List OrderSlot
  full : OrderSlot
  deriving DecidableEq

/-- Modelled from the spec: an empty slot for an order with its threshold
(CountsThresholdVector of section 3; the engine body is not in the sources). -/
def OrderSlot.init (order threshold : Nat) : OrderSlot :=
  { order := order, threshold := threshold, current := none, written := [],
    histogram := { n1 := 0, n2 := 0, n3 := 0, n4 := 0 }, count := 0, count_pruned := 0 }

/-- Modelled from the spec: the state before the pass (the engine body is not in the
sources); the threshold of order `k` is entry `k - 1` of the threshold vector. -/
def EngineState.init (counts_threshold : List Nat) (N : Nat) : EngineState :=
  { lower := (List.range (N - 1)).reverse.map
      (fun i => OrderSlot.init (i + 1) (counts_threshold.getD i 0))
    full := OrderSlot.init N (counts_threshold.getD (N - 1) 0) }

/-- Modelled from the spec: one record of the order-N stream (sections 4.1 and 4.3;
the engine body is not in the sources): the record is passed through with its
raw count, pruned directly against the threshold of order N (step 5), and
when it is not dropped it is the current record for the orders N-1 down
to 1. -/
def EngineState.step (st : EngineState) (r : NGramRecord) : EngineState :=
  { lower := lower_feed st.lower (handed_down (some (st.full.finished r.words r.count)))
    full := st.full.emit r.words r.count }

/-- Modelled from the spec: the single traversal of the order-N stream (section 4.1;
the engine body is not in the sources), followed by the flush of every lower
order at end of stream. -/
def adjust_pass (counts_threshold : List Nat) (N : Nat) (input : List NGramRecord) :
    EngineState :=
  let st := input.foldl EngineState.step (EngineState.init counts_threshold N)
  { lower := lower_finish st.lower [], full := st.full }

/-- Modelled from the spec: the slots of the orders 1 to N after the pass, lowest
order first (the engine body is not in the sources). -/
def EngineState.orders (st : EngineState) : List OrderSlot :=
  st.lower.reverse ++ [st.full]

/-- Modelled from the spec: the records written for order `k` (section 6, output
contract; the stream types are not in the sources). -/
def EngineState.records (st : EngineState) (k : Nat) : List WrittenRecord :=
  if k = 0 then []
  else
    match st.orders[k - 1]? with
    | some s => s.written
    | none => []

/-- Modelled from the spec: the `Discount` of section 3 (`discount.hh` is not in the
sources): the constants D1, D2 and D3+; exact rationals stand for the floating
constants. -/
structure Discount where
  D1 : ℚ
  D2 : ℚ
  D3plus : ℚ
  deriving DecidableEq

/-- Modelled from the spec: the failure taxonomy of section 7 (`util/exception.hh`
and the exception classes are not in the sources). -/
inductive EngineError where
  | ConfigurationError
  | BadDiscountException
  | ResourceExhaustion
  deriving DecidableEq

/-- Modelled from the spec: the formulas of section 4.2 (the discount computation is
not in the sources), without any validation. -/
def discount_formula (h : Histogram) : Discount :=
  let Y : ℚ := (h.n1 : ℚ) / ((h.n1 : ℚ) + 2 * (h.n2 : ℚ))
  { D1 := 1 - 2 * Y * (h.n2 : ℚ) / (h.n1 : ℚ)
    D2 := 2 - 3 * Y * (h.n3 : ℚ) / (h.n2 : ℚ)
    D3plus := 3 - 4 * Y * (h.n4 : ℚ) / (h.n3 : ℚ) }

/-- Modelled from the spec: the discount estimator of section 4.2 with its validation
(the discount computation is not in the sources): n1, n2 and n3 must be
positive and the discounts must satisfy 0 <= D1 <= D2 <= D3+; any violation is
a BadDiscountException failure. -/
def estimate_discount (h : Histogram) : Except EngineError Discount :=
  if h.n1 = 0 ∨ h.n2 = 0 ∨ h.n3 = 0 then .error .BadDiscountException
  else
    let d := discount_formula h
    if 0 ≤ d.D1 ∧ d.D1 ≤ d.D2 ∧ d.D2 ≤ d.D3plus then .ok d else .error .BadDiscountException

/-- Modelled from the spec: discounts of all orders, lowest first (section 4.1,
failure; the engine body is not in the sources): the first failing order
aborts. -/
def estimate_discounts : List Histogram → Except EngineError (List Discount)
  | [] => .ok []
  | h :: hs =>
    match estimate_discount h with
    | .error e => .error e
    | .ok d =>
      match estimate_discounts hs with
      | .error e => .error e
      | .ok ds => .ok (d :: ds)

/-- Modelled from the spec: what a successful run hands to the caller (section 6,
output contract; the engine body is not in the sources): CountsVector,
CountsPrunedVector, the discounts and the record streams of the orders 1 to N. -/
structure RunOutput where
  counts : List Nat
  counts_pruned : List Nat
  discounts : List Discount
  streams : List (List WrittenRecord)
  deriving DecidableEq

/-- Modelled from the spec: `AdjustCounts::Run` (sections 4.1, 4.2 and 5; only its
declaration `void Run(const ChainPositions &)` is in the sources): the single
pass, then the discounts of every order from its finished histogram; a
BadDiscountException failure aborts the run and nothing is produced. -/
def AdjustCounts.Run (counts_threshold : List Nat) (N : Nat) (input : List NGramRecord) :
    Except EngineError RunOutput :=
  let st := adjust_pass counts_threshold N input
  match estimate_discounts (st.orders.map (fun s => s.histogram)) with
  | .error e => .error e
  | .ok ds =>
    .ok { counts := st.orders.map (fun s => s.count)
          counts_pruned := st.orders.map (fun s => s.count_pruned)
          discounts := ds
          streams := st.orders.map (fun s => s.written) }

/-- Suffix order on word sequences: comparison of the reversed sequences, last word
first; `lex_lt a b` compares two sequences from their first elements. -/
def lex_lt : List Nat → List Nat → Bool
  | [], [] => false
  | [], _ :: _ => true
  | _ :: _, [] => false
  | x :: a, y :: b => decide (x < y) || (decide (x = y) && lex_lt a b)

/-- A unique suffix-sorted stream of order-N records: every record has N words and
each record is strictly below every later one in suffix order. -/
def suffix_sorted (N : Nat) (input : List NGramRecord) : Prop :=
  (∀ r ∈ input, r.words.length = N) ∧
  input.Pairwise (fun a b => lex_lt a.words.reverse b.words.reverse = true)

/-- The distinct one-word left-extensions of the word sequence `g` among the
records `recs`: the words `w` such that `w` followed by `g` is a record. -/
def left_extensions (recs : List WrittenRecord) (g : List Nat) : List Nat :=
  (recs.filterMap (fun h =>
    match h.words with
    | [] => none
    | w :: t => if t = g then some w else none)).dedup

/-! ## Vocabulary of the statements -/

/-- The separator characters of the pruning option: comma and space. -/
def separators : List Char := [',', ' ']

/-- The tokens `parse_pruning_parameter` splits its parameter into (line 137). -/
def pruning_tokens (param : String) : List (List Char) :=
  split (is_any_of separators) param.toList

/-- The decimal numeral of a natural number, as a character list. -/
def numeral (n : Nat) : List Char := (Nat.repr n).toList

/-- A separator run: one or more characters, each a comma or a space. -/
def is_separator_run (s : List Char) : Prop :=
  s ≠ [] ∧ ∀ c ∈ s, c = ',' ∨ c = ' '

/-- The parameter text made of the numerals of `ts` in order, the `i`-th and
`i+1`-th numeral separated by the `i`-th element of `seps`. -/
def write_thresholds : List Nat → List (List Char) → List Char
  | [], _ => []
  | [t], _ => numeral t
  | t :: t2 :: ts, [] => numeral t ++ write_thresholds (t2 :: ts) []
  | t :: t2 :: ts, sep :: seps => numeral t ++ sep ++ write_thresholds (t2 :: ts) seps

/-- A bigram stream with pruned records: six bigrams over the words 1 to 6,
suffix-sorted, with raw counts 2, 1, 3, 1, 2, 3; with the thresholds `[0, 1]`
the bigrams `(1,5)` and `(1,6)` are pruned. -/
def pruned_bigrams : List NGramRecord :=
  [⟨[1, 4], 2⟩, ⟨[1, 5], 1⟩, ⟨[2, 5], 3⟩, ⟨[1, 6], 1⟩, ⟨[2, 6], 2⟩, ⟨[3, 6], 3⟩]

/-- The order-3 stream `(x,y,z):1, (p,y,z):1, (x,y,w):1` with the words
x = 1, p = 2, y = 3, z = 4, w = 5. -/
def scenario_a : List NGramRecord :=
  [⟨[1, 3, 4], 1⟩, ⟨[2, 3, 4], 1⟩, ⟨[1, 3, 5], 1⟩]

/-- The records of a stream that the pruning filter did not drop. -/
def surviving (recs : List WrittenRecord) : List WrittenRecord :=
  recs.filter (fun h => !h.pruned)

/-- The word sequences of a list of written records. -/
def words_of (recs : List WrittenRecord) : List (List Nat) :=
  recs.map (fun h => h.words)

/-- Invariant of the slot of an order once the records `P` of the stream `X` handed
to it have been consumed. -/
structure SlotInv (X P : List (List Nat)) (s : OrderSlot) : Prop where
  counted : ∀ g ∈ s.written, ∃ seen : List Nat, seen.Nodup ∧ g.count = seen.length ∧
    ∀ w, w ∈ seen ↔ (w :: g.words) ∈ X
  sound : ∀ g ∈ s.written, ∃ e, (e :: g.words) ∈ X
  ordered : (words_of s.written).Pairwise (fun a b => lex_lt a.reverse b.reverse = true)
  pending : ∀ buf seen, s.current = some (buf, seen) →
    seen.Nodup ∧ (∃ P2 e, P = P2 ++ [e :: buf]) ∧ (∀ w, w ∈ seen ↔ (w :: buf) ∈ P) ∧
    ∀ g ∈ s.written, lex_lt g.words.reverse buf.reverse = true
  empty : s.current = none → P = [] ∧ s.written = []

/-- What the stream of an order holds once it has consumed the stream `X` of the
order above and is finished: every written count is the number of distinct
words `w` such that `w` followed by the written words is a record of `X`,
every written record is the suffix of a record of `X`, and the written records
are in strict suffix order. -/
structure LevelSpec (X : List (List Nat)) (written : List WrittenRecord) : Prop where
  counted : ∀ g ∈ written, ∃ seen : List Nat, seen.Nodup ∧ g.count = seen.length ∧
    ∀ w, w ∈ seen ↔ (w :: g.words) ∈ X
  sound : ∀ g ∈ written, ∃ e, (e :: g.words) ∈ X
  ordered : (words_of written).Pairwise (fun a b => lex_lt a.reverse b.reverse = true)

/-! ## Helper lemmas -/

theorem split_ne_nil (pred : Char → Bool) (s : List Char) : split pred s ≠ [] := by
  induction s with
  | nil => simp [split]
  | cons c cs ih =>
    unfold split
    split
    · cases cs with
      | nil => simp
      | cons d ds =>
        by_cases hd : pred d = true
        · simpa [hd] using ih
        · simp [hd]
    · split <;> simp

theorem split_sep_sep (pred : Char → Bool) (c d : Char) (ds : List Char)
    (hc : pred c = true) (hd : pred d = true) :
    split pred (c :: d :: ds) = split pred (d :: ds) := by
  conv_lhs => unfold split
  simp [hc, hd]

theorem split_sep_nonsep (pred : Char → Bool) (c d : Char) (ds : List Char)
    (hc : pred c = true) (hd : ¬ pred d = true) :
    split pred (c :: d :: ds) = [] :: split pred (d :: ds) := by
  conv_lhs => unfold split
  simp [hc, hd]

theorem split_nonsep (pred : Char → Bool) (c : Char) (cs tok : List Char)
    (toks : List (List Char)) (hc : ¬ pred c = true) (h : split pred cs = tok :: toks) :
    split pred (c :: cs) = (c :: tok) :: toks := by
  conv_lhs => unfold split
  simp [hc, h]

theorem split_leading_separator (pred : Char → Bool) (c : Char) (cs : List Char)
    (hc : pred c = true) : ∃ toks, split pred (c :: cs) = [] :: toks := by
  induction cs generalizing c with
  | nil => exact ⟨[[]], by simp [split, hc]⟩
  | cons d ds ih =>
    by_cases hd : pred d = true
    · obtain ⟨toks, h⟩ := ih d hd
      exact ⟨toks, by rw [split_sep_sep pred c d ds hc hd, h]⟩
    · exact ⟨split pred (d :: ds), split_sep_nonsep pred c d ds hc hd⟩

theorem split_trailing_separator (pred : Char → Bool) (c : Char) (hc : pred c = true)
    (xs : List Char) : ∃ tok toks, split pred (xs ++ [c]) = tok :: (toks ++ [[]]) := by
  induction xs with
  | nil => exact ⟨[], [], by simp [split, hc]⟩
  | cons x xs ih =>
    obtain ⟨tok, toks, h⟩ := ih
    by_cases hx : pred x = true
    · cases hxs : xs ++ [c] with
      | nil => simp at hxs
      | cons d ds =>
        rw [hxs] at h
        by_cases hd : pred d = true
        · exact ⟨tok, toks, by rw [List.cons_append, hxs, split_sep_sep pred x d ds hx hd, h]⟩
        · exact ⟨[], tok :: toks, by
            rw [List.cons_append, hxs, split_sep_nonsep pred x d ds hx hd, h]; rfl⟩
    · exact ⟨x :: tok, toks, by rw [List.cons_append, split_nonsep pred x _ _ _ hx h]⟩

theorem lexical_cast_uint64_nil : lexical_cast_uint64 [] = none := by
  simp [lexical_cast_uint64, c_str]

theorem convert_thresholds_error (toks : List (List Char)) (e : String)
    (h : convert_thresholds toks = .error e) : e = msg_nonnegative := by
  induction toks with
  | nil => simp [convert_thresholds] at h
  | cons tok toks ih =>
    unfold convert_thresholds at h
    split at h
    · injection h with h; exact h.symm
    · split at h
      · rename_i e2 he2
        injection h with h
        subst h
        exact ih he2
      · cases h

theorem convert_thresholds_fails (toks : List (List Char)) (tok : List Char)
    (hmem : tok ∈ toks) (hbad : lexical_cast_uint64 tok = none) :
    convert_thresholds toks = .error msg_nonnegative := by
  induction toks with
  | nil => cases hmem
  | cons t toks ih =>
    unfold convert_thresholds
    rcases List.mem_cons.mp hmem with rfl | hmem2
    · simp [hbad]
    · cases ht : lexical_cast_uint64 t with
      | none => simp
      | some v => simp [ih hmem2]

theorem convert_thresholds_ok_iff (toks : List (List Char)) (ts : List Nat) :
    convert_thresholds toks = .ok ts ↔ toks.map lexical_cast_uint64 = ts.map some := by
  induction toks generalizing ts with
  | nil =>
    cases ts <;> simp [convert_thresholds]
  | cons t toks ih =>
    unfold convert_thresholds
    cases ht : lexical_cast_uint64 t with
    | none => cases ts <;> simp [ht]
    | some v =>
      cases hc : convert_thresholds toks with
      | error e =>
        cases ts with
        | nil => simp [ht]
        | cons u us =>
          have := (ih us).not.mp (by rw [hc]; simp)
          simp [ht, this]
      | ok vs =>
        have hvs := (ih vs).mp hc
        cases ts with
        | nil => simp [ht]
        | cons u us =>
          simp only [List.map_cons, ht, List.cons.injEq, Option.some.injEq, Except.ok.injEq]
          constructor
          · rintro ⟨rfl, rfl⟩; exact ⟨rfl, hvs⟩
          · rintro ⟨rfl, h⟩
            refine ⟨rfl, ?_⟩
            have := (ih us).mpr h
            rw [hc] at this
            injection this

theorem convert_thresholds_length (toks : List (List Char)) (ts : List Nat)
    (h : convert_thresholds toks = .ok ts) : ts.length = toks.length := by
  have := congrArg List.length ((convert_thresholds_ok_iff toks ts).mp h)
  simpa using this.symm

theorem convert_thresholds_of_all_some (toks : List (List Char))
    (h : ∀ tok ∈ toks, (lexical_cast_uint64 tok).isSome = true) :
    ∃ ts, convert_thresholds toks = .ok ts := by
  induction toks with
  | nil => exact ⟨[], rfl⟩
  | cons t toks ih =>
    obtain ⟨ts, hts⟩ := ih (fun tok hm => h tok (List.mem_cons_of_mem _ hm))
    have ht := h t (List.mem_cons_self _ _)
    obtain ⟨v, hv⟩ := Option.isSome_iff_exists.mp ht
    exact ⟨v :: ts, by simp [convert_thresholds, hv, hts]⟩

theorem thresholds_not_decreasing_iff (lower : Nat) (ts : List Nat) :
    thresholds_not_decreasing lower ts = true ↔ List.Chain (· ≤ ·) lower ts := by
  induction ts generalizing lower with
  | nil => simp [thresholds_not_decreasing]
  | cons t ts ih =>
    unfold thresholds_not_decreasing
    by_cases h : lower > t
    · simp [h]
    · simp [h, ih, Nat.le_of_not_gt h]

theorem chain_getD_le (lower : Nat) (ts : List Nat) (h : List.Chain (· ≤ ·) lower ts)
    (i : Nat) (hi : i + 1 < ts.length) : ts.getD i 0 ≤ ts.getD (i + 1) 0 := by
  induction ts generalizing lower i with
  | nil => simp at hi
  | cons t ts ih =>
    cases h with
    | cons h1 h2 =>
      cases i with
      | zero =>
        cases ts with
        | nil => simp at hi
        | cons u us =>
          cases h2 with
          | cons h3 _ => simpa using h3
      | succ j =>
        have := ih t h2 j (by simpa using hi)
        simpa using this

theorem chain_of_getD_le (lower : Nat) (ts : List Nat) (h0 : ∀ t, ts.head? = some t → lower ≤ t)
    (h : ∀ i, i + 1 < ts.length → ts.getD i 0 ≤ ts.getD (i + 1) 0) :
    List.Chain (· ≤ ·) lower ts := by
  induction ts generalizing lower with
  | nil => exact List.Chain.nil
  | cons t ts ih =>
    refine List.Chain.cons (h0 t rfl) (ih t ?_ ?_)
    · intro u hu
      cases ts with
      | nil => simp at hu
      | cons v vs =>
        simp at hu
        subst hu
        simpa using h 0 (by simp)
    · intro i hi
      simpa using h (i + 1) (by simpa using hi)

/-- Unfolding of `parse_pruning_parameter` once the tokens have converted to `ts`. -/
theorem parse_of_converted (param : String) (order : Nat) (ts : List Nat)
    (h : convert_thresholds (pruning_tokens param) = .ok ts) :
    parse_pruning_parameter param order =
      if ts.length > 0 then
        if ts.length ≠ order then .error msg_each_order
        else if ts.headD 0 ≠ 0 then .error msg_unigrams
        else if thresholds_not_decreasing 0 ts then .ok ts
        else .error msg_decreasing
      else .ok (List.replicate order 0) := by
  unfold pruning_tokens separators at h
  simp only [parse_pruning_parameter, h]

/-- The number list converted from the tokens is never empty: the `else`
branch of line 164 is not reached. -/
theorem converted_length_pos (param : String) (ts : List Nat)
    (h : convert_thresholds (pruning_tokens param) = .ok ts) : 0 < ts.length := by
  rw [convert_thresholds_length _ _ h]
  exact List.length_pos.mpr (split_ne_nil _ _)

theorem parse_of_convert_error (param : String) (order : Nat) (e : String)
    (h : convert_thresholds (pruning_tokens param) = .error e) :
    parse_pruning_parameter param order = .error e := by
  unfold pruning_tokens separators at h
  simp only [parse_pruning_parameter, h]

theorem parse_of_bad_token (param : String) (order : Nat) (tok : List Char)
    (hmem : tok ∈ pruning_tokens param) (hbad : lexical_cast_uint64 tok = none) :
    parse_pruning_parameter param order = .error msg_nonnegative :=
  parse_of_convert_error param order _ (convert_thresholds_fails _ tok hmem hbad)

theorem main_of_parse_error (param : String) (order : Nat) (e : String)
    (h : parse_pruning_parameter param order = .error e) (files_ok : Bool)
    (pipeline : List Nat → PipelineResult) :
    main_after_options param order files_ok pipeline =
      { pipeline_started := false, counts_threshold := none, exit_code := 1 } := by
  simp only [main_after_options, h]

/-! ## Numerals and their tokens -/

theorem digitChar_spec (k : Nat) (hk : k < 10) :
    (Nat.digitChar k).isDigit = true ∧ (Nat.digitChar k).toNat - 48 = k := by
  interval_cases k <;> exact ⟨rfl, rfl⟩

theorem isDigit_not_special (c : Char) (h : c.isDigit = true) :
    c ≠ ',' ∧ c ≠ ' ' ∧ c ≠ '-' ∧ c ≠ '+' ∧ c ≠ Char.ofNat 0 := by
  refine ⟨?_, ?_, ?_, ?_, ?_⟩ <;> (rintro rfl; revert h; decide)

theorem digits_value_append (L : List Char) (n : Nat)
    (h : ∀ acc rest, digits_value (L ++ rest) acc = digits_value rest (acc * 10 ^ L.length + n))
    (acc : Nat) : digits_value L acc = some (acc * 10 ^ L.length + n) := by
  have := h acc []
  simpa [digits_value] using this

theorem toDigitsCore_spec (fuel n : Nat) (ds : List Char) (h : n < fuel) :
    ∃ L, Nat.toDigitsCore 10 fuel n ds = L ++ ds ∧ L ≠ [] ∧
      (∀ c ∈ L, c.isDigit = true) ∧
      ∀ acc rest, digits_value (L ++ rest) acc =
        digits_value rest (acc * 10 ^ L.length + n) := by
  induction fuel generalizing n ds with
  | zero => omega
  | succ fuel ih =>
    have hd := digitChar_spec (n % 10) (Nat.mod_lt _ (by norm_num))
    unfold Nat.toDigitsCore
    by_cases hq : n / 10 = 0
    · refine ⟨[Nat.digitChar (n % 10)], by simp [hq], by simp, by simpa using hd.1, ?_⟩
      intro acc rest
      have hn : n % 10 = n := Nat.mod_eq_of_lt (by omega)
      simp only [List.singleton_append, digits_value, hd.1, if_true, hd.2,
        List.length_singleton, pow_one]
      rw [hn]
      rfl
    · have hlt : n / 10 < fuel := by omega
      obtain ⟨L, hL, hne, hdig, hval⟩ := ih (n / 10) (Nat.digitChar (n % 10) :: ds) hlt
      refine ⟨L ++ [Nat.digitChar (n % 10)], by simp [hq, hL], by simp, ?_, ?_⟩
      · intro c hc
        rcases List.mem_append.mp hc with hc | hc
        · exact hdig c hc
        · simp at hc
          subst hc
          exact hd.1
      · intro acc rest
        rw [List.append_assoc, hval]
        simp only [List.singleton_append, digits_value, hd.1, if_true, hd.2,
          List.length_append, List.length_singleton]
        congr 1
        have := Nat.div_add_mod n 10
        rw [pow_succ]
        nlinarith [Nat.div_add_mod n 10]

theorem numeral_spec (n : Nat) :
    numeral n ≠ [] ∧ (∀ c ∈ numeral n, c.isDigit = true) ∧
    digits_value (numeral n) 0 = some n := by
  obtain ⟨L, hL, hne, hdig, hval⟩ := toDigitsCore_spec (n + 1) n [] (Nat.lt_succ_self n)
  have hnum : numeral n = L := by
    show (Nat.toDigits 10 n) = L
    simpa [Nat.toDigits] using hL
  rw [hnum]
  refine ⟨hne, hdig, ?_⟩
  simpa using digits_value_append L n hval 0

theorem lexical_cast_numeral (n : Nat) (h : n ≤ UINT64_MAX) :
    lexical_cast_uint64 (numeral n) = some n := by
  obtain ⟨hne, hdig, hval⟩ := numeral_spec n
  have hc : c_str (numeral n) = numeral n := by
    unfold c_str
    rw [List.takeWhile_eq_self_iff]
    intro c hc
    simpa using (isDigit_not_special c (hdig c hc)).2.2.2.2
  unfold lexical_cast_uint64
  rw [hc]
  cases hl : numeral n with
  | nil => exact absurd hl hne
  | cons c cs =>
    have hcd := isDigit_not_special c (hdig c (by rw [hl]; exact List.mem_cons_self _ _))
    rw [hl] at hval
    simp [hcd.2.2.1, hcd.2.2.2.1, lcast_ret_unsigned, hval, h]

theorem split_token_append (pred : Char → Bool) (tok rest t : List Char)
    (toks : List (List Char)) (htok : ∀ c ∈ tok, ¬ pred c = true)
    (h : split pred rest = t :: toks) : split pred (tok ++ rest) = (tok ++ t) :: toks := by
  induction tok with
  | nil => simpa using h
  | cons c cs ih =>
    have hcs := ih (fun d hd => htok d (List.mem_cons_of_mem _ hd))
    rw [List.cons_append, split_nonsep pred c _ _ _ (htok c (List.mem_cons_self _ _)) hcs]
    rfl

theorem split_separator_run (pred : Char → Bool) (sep : List Char) (d : Char)
    (ds : List Char) (hne : sep ≠ []) (hsep : ∀ c ∈ sep, pred c = true)
    (hd : ¬ pred d = true) : split pred (sep ++ d :: ds) = [] :: split pred (d :: ds) := by
  induction sep with
  | nil => exact absurd rfl hne
  | cons c cs ih =>
    have hc := hsep c (List.mem_cons_self _ _)
    cases cs with
    | nil => exact split_sep_nonsep pred c d ds hc hd
    | cons e es =>
      have he := hsep e (List.mem_cons_of_mem _ (List.mem_cons_self _ _))
      have := ih (by simp) (fun x hx => hsep x (List.mem_cons_of_mem _ hx))
      rw [List.cons_append, List.cons_append, split_sep_sep pred c e _ hc he]
      simpa using this

theorem numeral_not_separator (n : Nat) (c : Char) (hc : c ∈ numeral n) :
    ¬ is_any_of separators c = true := by
  have h := isDigit_not_special c ((numeral_spec n).2.1 c hc)
  simp [is_any_of, separators, h.1, h.2.1]

theorem write_thresholds_head (t : Nat) (ts : List Nat) (seps : List (List Char)) :
    ∃ d ds, write_thresholds (t :: ts) seps = d :: ds ∧ ¬ is_any_of separators d = true := by
  obtain ⟨hne, _, _⟩ := numeral_spec t
  cases hl : numeral t with
  | nil => exact absurd hl hne
  | cons d ds =>
    have hd := numeral_not_separator t d (by rw [hl]; exact List.mem_cons_self _ _)
    cases ts with
    | nil => exact ⟨d, ds, by simp [write_thresholds, hl], hd⟩
    | cons t2 ts =>
      cases seps with
      | nil =>
        exact ⟨d, ds ++ write_thresholds (t2 :: ts) [], by
          simp only [write_thresholds, hl, List.cons_append], hd⟩
      | cons sep seps =>
        exact ⟨d, ds ++ sep ++ write_thresholds (t2 :: ts) seps, by
          simp only [write_thresholds, hl, List.cons_append], hd⟩

theorem split_write_thresholds (ts : List Nat) (seps : List (List Char)) (hts : ts ≠ [])
    (hlen : seps.length = ts.length - 1) (hrun : ∀ s ∈ seps, is_separator_run s) :
    split (is_any_of separators) (write_thresholds ts seps) = ts.map numeral := by
  induction ts generalizing seps with
  | nil => exact absurd rfl hts
  | cons t ts ih =>
    cases ts with
    | nil =>
      have := split_token_append (is_any_of separators) (numeral t) [] [] []
        (numeral_not_separator t) rfl
      simpa [write_thresholds] using this
    | cons t2 ts =>
      cases seps with
      | nil => simp at hlen
      | cons sep seps =>
        have hrest := ih seps (by simp) (by simpa using hlen)
          (fun s hs => hrun s (List.mem_cons_of_mem _ hs))
        obtain ⟨d, ds, hw, hd⟩ := write_thresholds_head t2 ts seps
        have hsep := hrun sep (List.mem_cons_self _ _)
        have hsp : split (is_any_of separators) (sep ++ write_thresholds (t2 :: ts) seps) =
            [] :: (t2 :: ts).map numeral := by
          rw [hw, split_separator_run _ sep d ds hsep.1 ?_ hd, ← hw, hrest]
          intro c hc
          rcases hsep.2 c hc with rfl | rfl <;> decide
        have := split_token_append (is_any_of separators) (numeral t) _ _ _
          (numeral_not_separator t) hsp
        simpa [write_thresholds] using this

theorem convert_numerals (ts : List Nat) (h64 : ∀ t ∈ ts, t ≤ UINT64_MAX) :
    convert_thresholds (ts.map numeral) = .ok ts := by
  rw [convert_thresholds_ok_iff, List.map_map]
  apply List.map_congr_left
  intro t ht
  exact lexical_cast_numeral t (h64 t ht)

/-! ## Accepted parameters -/

/-- C1: for an order `N >= 1` and `N` unsigned 64-bit thresholds `ts` with
`ts[0] = 0` and `ts[i] <= ts[i+1]`, the parameter made of the decimal numerals
of `ts`, adjacent numerals separated by one or more commas and spaces, is
parsed to exactly `ts`.  In particular `0 5 100` and `0,5,100` give `[0,5,100]`
for order 3 and `0,1,2 3` gives `[0,1,2,3]` for order 4. -/
theorem well_formed_parameter_accepted (N : Nat) (ts : List Nat) (seps : List (List Char))
    (hN : 1 ≤ N) (hlen : ts.length = N) (hseps : seps.length = N - 1)
    (hrun : ∀ s ∈ seps, is_separator_run s)
    (h64 : ∀ t ∈ ts, t ≤ UINT64_MAX)
    (h0 : ts[0]? = some 0)
    (hmono : ∀ i, i + 1 < N → ts.getD i 0 ≤ ts.getD (i + 1) 0) :
    parse_pruning_parameter (String.mk (write_thresholds ts seps)) N = .ok ts ∧
    parse_pruning_parameter "0 5 100" 3 = .ok [0, 5, 100] ∧
    parse_pruning_parameter "0,5,100" 3 = .ok [0, 5, 100] ∧
    parse_pruning_parameter "0,1,2 3" 4 = .ok [0, 1, 2, 3] := by
  refine ⟨?_, by rfl, by rfl, by rfl⟩
  have hts : ts ≠ [] := by
    intro h
    rw [h] at hlen
    simp at hlen
    omega
  have hpos : ts.length > 0 := List.length_pos.mpr hts
  have hsplit : pruning_tokens (String.mk (write_thresholds ts seps)) = ts.map numeral :=
    split_write_thresholds ts seps hts (by rw [hseps, hlen]) hrun
  have hconv : convert_thresholds (pruning_tokens (String.mk (write_thresholds ts seps)))
      = .ok ts := by
    rw [hsplit]
    exact convert_numerals ts h64
  have hhead : ¬ ts.headD 0 ≠ 0 := by
    cases ts with
    | nil => exact absurd rfl hts
    | cons t ts => simpa using h0
  have hchain : thresholds_not_decreasing 0 ts = true := by
    rw [thresholds_not_decreasing_iff]
    apply chain_of_getD_le
    · intro t _
      exact Nat.zero_le t
    · intro i hi
      exact hmono i (by omega)
  rw [parse_of_converted _ N ts hconv, if_pos hpos, if_neg (by simpa using hlen),
    if_neg hhead, if_pos hchain]

theorem well_formed_parameter_accepted_witness :
    parse_pruning_parameter (String.mk (write_thresholds [0, 1, 2, 3]
      [[','], [',', ' '], [' ']])) 4 = .ok [0, 1, 2, 3] ∧
    parse_pruning_parameter "0 5 100" 3 = .ok [0, 5, 100] ∧
    parse_pruning_parameter "0,5,100" 3 = .ok [0, 5, 100] ∧
    parse_pruning_parameter "0,1,2 3" 4 = .ok [0, 1, 2, 3] :=
  well_formed_parameter_accepted 4 [0, 1, 2, 3] [[','], [',', ' '], [' ']]
    (by decide) (by decide) (by decide)
    (by
      intro s hs
      simp only [List.mem_cons, List.mem_singleton, List.not_mem_nil, or_false] at hs
      rcases hs with rfl | rfl | rfl <;> exact ⟨by simp, by simp⟩)
    (by
      intro t ht
      simp only [List.mem_cons, List.mem_singleton, List.not_mem_nil, or_false] at ht
      rcases ht with rfl | rfl | rfl | rfl <;> decide)
    (by rfl)
    (by
      intro i hi
      have hi3 : i < 3 := by omega
      interval_cases i <;> decide)

/-! ## Rejected threshold vectors -/

/-- C2: when every token of the parameter converts to an unsigned 64-bit number
and the number of tokens differs from the order `N`, `parse_pruning_parameter`
throws (the message asks for one threshold per order) and returns no vector,
and `main` exits with status 1 without having called `Pipeline`. -/
theorem wrong_length_rejected (param : String) (N : Nat)
    (hconv : ∀ tok ∈ pruning_tokens param, (lexical_cast_uint64 tok).isSome = true)
    (hne : (pruning_tokens param).length ≠ N) :
    parse_pruning_parameter param N = .error msg_each_order ∧
    (∀ v, parse_pruning_parameter param N ≠ .ok v) ∧
    ∀ (files_ok : Bool) (pipeline : List Nat → PipelineResult),
      (main_after_options param N files_ok pipeline).pipeline_started = false ∧
      (main_after_options param N files_ok pipeline).exit_code = 1 := by
  obtain ⟨ts, hts⟩ := convert_thresholds_of_all_some _ hconv
  have hlen := convert_thresholds_length _ _ hts
  have hpos := converted_length_pos param ts hts
  have hparse : parse_pruning_parameter param N = .error msg_each_order := by
    rw [parse_of_converted param N ts hts]
    have hne2 : ts.length ≠ N := by rw [hlen]; exact hne
    simp [hpos, hne2]
  refine ⟨hparse, ?_, ?_⟩
  · intro v hv
    rw [hparse] at hv
    cases hv
  · intro files_ok pipeline
    rw [main_of_parse_error param N _ hparse]
    exact ⟨rfl, rfl⟩

theorem wrong_length_rejected_witness :
    parse_pruning_parameter "0 1" 3 = .error msg_each_order ∧
    (∀ v, parse_pruning_parameter "0 1" 3 ≠ .ok v) ∧
    ∀ (files_ok : Bool) (pipeline : List Nat → PipelineResult),
      (main_after_options "0 1" 3 files_ok pipeline).pipeline_started = false ∧
      (main_after_options "0 1" 3 files_ok pipeline).exit_code = 1 :=
  wrong_length_rejected "0 1" 3 (by decide) (by decide)

/-- C3: when the tokens of the parameter convert to the numbers `ts` and the
first of them, the unigram threshold, is not zero, `parse_pruning_parameter`
throws whatever the order and the other thresholds are: for a wrong number of
thresholds with the message of line 153, otherwise with the message that
unigrams may not be pruned. -/
theorem nonzero_unigram_rejected (param : String) (N : Nat) (ts : List Nat)
    (hconv : convert_thresholds (pruning_tokens param) = .ok ts)
    (hfirst : ∀ t, ts.head? = some t → t ≠ 0) :
    (∀ v, parse_pruning_parameter param N ≠ .ok v) ∧
    parse_pruning_parameter param N =
      .error (if ts.length ≠ N then msg_each_order else msg_unigrams) := by
  have hpos := converted_length_pos param ts hconv
  have hparse : parse_pruning_parameter param N =
      .error (if ts.length ≠ N then msg_each_order else msg_unigrams) := by
    rw [parse_of_converted param N ts hconv]
    cases ts with
    | nil => simp at hpos
    | cons t ts =>
      have ht : t ≠ 0 := hfirst t rfl
      have hh : (t :: ts).headD 0 ≠ 0 := ht
      by_cases hl : (t :: ts).length ≠ N
      · rw [if_pos hpos, if_pos hl, if_pos hl]
      · rw [if_pos hpos, if_neg hl, if_neg hl, if_pos hh]
  refine ⟨?_, hparse⟩
  intro v hv
  rw [hparse] at hv
  cases hv

theorem nonzero_unigram_rejected_witness :
    (∀ v, parse_pruning_parameter "1 2 3" 3 ≠ .ok v) ∧
    parse_pruning_parameter "1 2 3" 3 =
      .error (if [1, 2, 3].length ≠ 3 then msg_each_order else msg_unigrams) :=
  nonzero_unigram_rejected "1 2 3" 3 [1, 2, 3] (by rfl) (by simp)

/-- C4: when the tokens of the parameter convert to the numbers `ts` and some
threshold is higher than the one of the next order (`ts[i] > ts[i+1]`),
`parse_pruning_parameter` throws a `util::Exception` and returns no vector. -/
theorem decreasing_rejected (param : String) (N : Nat) (ts : List Nat)
    (hconv : convert_thresholds (pruning_tokens param) = .ok ts)
    (hdesc : ∃ i, i + 1 < ts.length ∧ ts.getD i 0 > ts.getD (i + 1) 0) :
    (∃ e, parse_pruning_parameter param N = .error e) ∧
    ∀ v, parse_pruning_parameter param N ≠ .ok v := by
  have hpos := converted_length_pos param ts hconv
  have hbad : thresholds_not_decreasing 0 ts = false := by
    cases hb : thresholds_not_decreasing 0 ts with
    | false => rfl
    | true =>
      obtain ⟨i, hi, hgt⟩ := hdesc
      have := chain_getD_le 0 ts ((thresholds_not_decreasing_iff 0 ts).mp hb) i hi
      omega
  have hparse : ∃ e, parse_pruning_parameter param N = .error e := by
    rw [parse_of_converted param N ts hconv]
    rw [if_pos hpos]
    by_cases hl : ts.length ≠ N
    · exact ⟨_, if_pos hl⟩
    · rw [if_neg hl]
      by_cases hh : ts.headD 0 ≠ 0
      · exact ⟨_, if_pos hh⟩
      · rw [if_neg hh, hbad]
        exact ⟨msg_decreasing, rfl⟩
  refine ⟨hparse, ?_⟩
  obtain ⟨e, he⟩ := hparse
  intro v hv
  rw [he] at hv
  cases hv

theorem decreasing_rejected_witness :
    (∃ e, parse_pruning_parameter "0 5 3" 3 = .error e) ∧
    ∀ v, parse_pruning_parameter "0 5 3" 3 ≠ .ok v :=
  decreasing_rejected "0 5 3" 3 [0, 5, 3] (by rfl) ⟨1, by decide, by decide⟩

/-- C10: a parameter whose first or last character is a comma or a space makes
`parse_pruning_parameter` throw, for every order: the first or the last token
is empty and does not convert. -/
theorem edge_separator_rejected (param : String) (N : Nat)
    (hne : param.toList ≠ [])
    (hedge : (∃ c, param.toList.head? = some c ∧ (c = ',' ∨ c = ' ')) ∨
      (∃ c, param.toList.getLast? = some c ∧ (c = ',' ∨ c = ' '))) :
    parse_pruning_parameter param N = .error msg_nonnegative ∧
    ([] ∈ pruning_tokens param ∧ lexical_cast_uint64 [] = none) := by
  have hsep : ∀ c : Char, (c = ',' ∨ c = ' ') → is_any_of separators c = true := by
    intro c hc
    rcases hc with rfl | rfl <;> decide
  have hmem : [] ∈ pruning_tokens param := by
    rcases hedge with ⟨c, hc, hcs⟩ | ⟨c, hc, hcs⟩
    · cases hl : param.toList with
      | nil => exact absurd hl hne
      | cons d ds =>
        rw [hl] at hc
        simp at hc
        subst hc
        obtain ⟨toks, h⟩ := split_leading_separator _ d ds (hsep d hcs)
        unfold pruning_tokens
        rw [hl, h]
        exact List.mem_cons_self _ _
    · obtain ⟨xs, hxs⟩ : ∃ xs, param.toList = xs ++ [c] := by
        rcases List.eq_nil_or_concat param.toList with h | ⟨xs, d, h⟩
        · exact absurd h hne
        · rw [h] at hc
          simp at hc
          subst hc
          exact ⟨xs, by simpa using h⟩
      obtain ⟨tok, toks, h⟩ := split_trailing_separator _ c (hsep c hcs) xs
      unfold pruning_tokens
      rw [hxs, h]
      simp
  exact ⟨parse_of_bad_token param N [] hmem lexical_cast_uint64_nil,
    hmem, lexical_cast_uint64_nil⟩

theorem edge_separator_rejected_witness :
    parse_pruning_parameter "0 1 " 3 = .error msg_nonnegative ∧
    ([] ∈ pruning_tokens "0 1 " ∧ lexical_cast_uint64 [] = none) :=
  edge_separator_rejected "0 1 " 3 (by decide) (Or.inr ⟨' ', by decide, Or.inr rfl⟩)

/-! ## The returned vector -/

/-- C6: a vector returned by `parse_pruning_parameter(param, N)` has length `N`,
starts with 0 when `N >= 1`, and is non-decreasing: `v[i] <= v[i+1]` for every
`i < N - 1`. -/
theorem returned_vector_invariant (param : String) (N : Nat) (v : List Nat)
    (h : parse_pruning_parameter param N = .ok v) :
    v.length = N ∧ (1 ≤ N → v[0]? = some 0) ∧
    ∀ i, i + 1 < N → v.getD i 0 ≤ v.getD (i + 1) 0 := by
  cases hc : convert_thresholds (pruning_tokens param) with
  | error e =>
    rw [parse_of_convert_error param N e hc] at h
    cases h
  | ok ts =>
    have hpos := converted_length_pos param ts hc
    rw [parse_of_converted param N ts hc] at h
    simp only [hpos, if_true] at h
    split at h
    · cases h
    · rename_i hl
      split at h
      · cases h
      · rename_i hh
        split at h
        · rename_i hmono
          injection h with h
          subst h
          have hlen : ts.length = N := by simpa using hl
          refine ⟨hlen, ?_, ?_⟩
          · intro _
            cases ts with
            | nil => simp at hpos
            | cons t ts => simpa using hh
          · intro i hi
            exact chain_getD_le 0 ts ((thresholds_not_decreasing_iff 0 ts).mp hmono) i
              (by omega)
        · cases h

theorem returned_vector_invariant_witness :
    [0, 5, 100].length = 3 ∧ (1 ≤ 3 → [0, 5, 100][0]? = some 0) ∧
    ∀ i, i + 1 < 3 → [0, 5, 100].getD i 0 ≤ [0, 5, 100].getD (i + 1) 0 :=
  returned_vector_invariant "0 5 100" 3 [0, 5, 100] (by rfl)

/-! ## Behaviour that differs from the documented one -/

/-- C5: with the empty parameter (pruning option absent) `boost::split` yields one
empty token, which does not convert, so `parse_pruning_parameter` throws for
every order instead of returning zeros. -/
theorem empty_param_throws (N : Nat) :
    parse_pruning_parameter "" N = .error msg_nonnegative ∧
    pruning_tokens "" = [[]] := by
  refine ⟨parse_of_bad_token "" N [] ?_ lexical_cast_uint64_nil, ?_⟩
  · decide
  · rfl

/-- C7: the token `-1` converts: for order 2 the parameter `0 -1` is accepted and
the bigram threshold is `2 ^ 64 - 1`. -/
theorem minus_one_accepted :
    parse_pruning_parameter "0 -1" 2 = .ok [0, 18446744073709551615] ∧
    lexical_cast_uint64 ['-', '1'] = some (2 ^ 64 - 1) := by
  constructor <;> rfl

/-! ## Suffix order -/

theorem lex_lt_irrefl (a : List Nat) : lex_lt a a = false := by
  induction a with
  | nil => rfl
  | cons x a ih => simp [lex_lt, ih]

theorem lex_lt_trans (a b c : List Nat) (hab : lex_lt a b = true) (hbc : lex_lt b c = true) :
    lex_lt a c = true := by
  induction a generalizing b c with
  | nil =>
    cases b with
    | nil => simp [lex_lt] at hab
    | cons y b =>
      cases c with
      | nil => simp [lex_lt] at hbc
      | cons z c => rfl
  | cons x a ih =>
    cases b with
    | nil => simp [lex_lt] at hab
    | cons y b =>
      cases c with
      | nil => simp [lex_lt] at hbc
      | cons z c =>
        simp only [lex_lt, Bool.or_eq_true, decide_eq_true_eq, Bool.and_eq_true] at hab hbc ⊢
        rcases hab with h1 | ⟨rfl, h1⟩
        · rcases hbc with h2 | ⟨rfl, _⟩
          · exact Or.inl (by omega)
          · exact Or.inl h1
        · rcases hbc with h2 | ⟨rfl, h2⟩
          · exact Or.inl h2
          · exact Or.inr ⟨rfl, ih b c h1 h2⟩

theorem lex_lt_of_append_singleton (a b : List Nat) (p q : Nat) (hlen : a.length = b.length)
    (h : lex_lt (a ++ [p]) (b ++ [q]) = true) (hne : a ≠ b) : lex_lt a b = true := by
  induction a generalizing b with
  | nil =>
    cases b with
    | nil => exact absurd rfl hne
    | cons y b => simp at hlen
  | cons x a ih =>
    cases b with
    | nil => simp at hlen
    | cons y b =>
      simp only [List.cons_append, lex_lt, Bool.or_eq_true, decide_eq_true_eq,
        Bool.and_eq_true] at h ⊢
      rcases h with h | ⟨rfl, h⟩
      · exact Or.inl h
      · refine Or.inr ⟨rfl, ih b (by simpa using hlen) h ?_⟩
        intro hab
        exact hne (by rw [hab])

/-- Two records of equal length in strict suffix order whose suffixes differ have
their suffixes in strict suffix order. -/
theorem tail_lt (p q : Nat) (u v : List Nat) (hlen : u.length = v.length)
    (h : lex_lt (p :: u).reverse (q :: v).reverse = true) (hne : u ≠ v) :
    lex_lt u.reverse v.reverse = true := by
  rw [List.reverse_cons, List.reverse_cons] at h
  refine lex_lt_of_append_singleton _ _ p q (by simpa using hlen) h ?_
  intro hr
  exact hne (List.reverse_injective hr)

theorem not_lt_both (u v : List Nat) (h1 : lex_lt u.reverse v.reverse = true)
    (h2 : lex_lt v.reverse u.reverse = true) : False := by
  have := lex_lt_trans _ _ _ h1 h2
  rw [lex_lt_irrefl] at this
  cases this

/-! ## The slot of one order during the pass -/

theorem OrderSlot.emit_written (s : OrderSlot) (words : List Nat) (c : Nat) :
    (s.emit words c).written = s.written ++ [s.finished words c] := rfl

theorem slot_inv_empty (X : List (List Nat)) (s : OrderSlot) (hw : s.written = [])
    (hc : s.current = none) : SlotInv X [] s where
  counted := by intro g hg; rw [hw] at hg; cases hg
  sound := by intro g hg; rw [hw] at hg; cases hg
  ordered := by rw [hw]; exact List.Pairwise.nil
  pending := by intro buf seen h; rw [hc] at h; cases h
  empty := fun _ => ⟨rfl, hw⟩

theorem slot_inv_advance (k : Nat) (X P Q : List (List Nat)) (r : List Nat)
    (hin : X = P ++ r :: Q) (hlen : ∀ x ∈ X, x.length = k + 1)
    (hsorted : X.Pairwise (fun a b => lex_lt a.reverse b.reverse = true))
    (s : OrderSlot) (inv : SlotInv X P s) : SlotInv X (P ++ [r]) (s.advance r).1 := by
  have hPin : ∀ x ∈ P, x ∈ X := fun x hx => by rw [hin]; simp [hx]
  have hrin : r ∈ X := by rw [hin]; simp
  have htl : ∀ e u, (e :: u) ∈ X → u.length = k := fun e u h => by
    have := hlen _ h
    simpa using this
  obtain ⟨ext, suf, rfl⟩ : ∃ ext suf, r = ext :: suf := by
    cases r with
    | nil => have := hlen _ hrin; simp at this
    | cons e u => exact ⟨e, u, rfl⟩
  have hsuf := htl ext suf hrin
  have hpw := hsorted
  rw [hin, List.pairwise_append] at hpw
  obtain ⟨hpwP, hpwrQ, hcross⟩ := hpw
  have hPr : ∀ x ∈ P, lex_lt x.reverse (ext :: suf).reverse = true :=
    fun x hx => hcross x hx _ (List.mem_cons_self _ _)
  have hrQ : ∀ z ∈ Q, lex_lt (ext :: suf).reverse z.reverse = true :=
    fun z hz => (List.pairwise_cons.mp hpwrQ).1 z hz
  cases hc : s.current with
  | none =>
    obtain ⟨hP, hW⟩ := inv.empty hc
    subst hP
    have hadv : (s.advance (ext :: suf)).1 = { s with current := some (suf, [ext]) } := by
      simp only [OrderSlot.advance, hc]
    rw [hadv]
    exact {
      counted := inv.counted
      sound := inv.sound
      ordered := inv.ordered
      pending := by
        intro buf seen h
        simp only [Option.some.injEq, Prod.mk.injEq] at h
        obtain ⟨rfl, rfl⟩ := h
        refine ⟨by simp, ⟨[], ext, rfl⟩, ?_, ?_⟩
        · intro w
          simp
        · intro g hg
          rw [show s.written = [] from hW] at hg
          cases hg
      empty := by intro h; cases h }
  | some cur =>
    obtain ⟨buf, seen⟩ := cur
    obtain ⟨hnd, ⟨P2, e, hP⟩, hseen, hbelow⟩ := inv.pending buf seen hc
    have hlP : (e :: buf) ∈ P := by rw [hP]; simp
    have hbuf := htl e buf (hPin _ hlP)
    by_cases hsame : suf = buf
    · subst hsame
      have hmemr : ∀ w, (w :: suf) ∈ P ++ [ext :: suf] ↔ (w ∈ seen ∨ w = ext) := by
        intro w
        rw [List.mem_append, hseen w]
        simp
      by_cases hmem : ext ∈ seen
      · have hadv : (s.advance (ext :: suf)).1 = s := by
          simp only [OrderSlot.advance, hc, if_true, hmem]
        rw [hadv]
        exact {
          counted := inv.counted
          sound := inv.sound
          ordered := inv.ordered
          pending := by
            intro buf2 seen2 h
            rw [hc] at h
            simp only [Option.some.injEq, Prod.mk.injEq] at h
            obtain ⟨rfl, rfl⟩ := h
            refine ⟨hnd, ⟨P, ext, rfl⟩, ?_, hbelow⟩
            intro w
            rw [hmemr w]
            constructor
            · exact Or.inl
            · rintro (h | rfl)
              · exact h
              · exact hmem
          empty := by intro h; rw [hc] at h; cases h }
      · have hadv : (s.advance (ext :: suf)).1 =
            { s with current := some (suf, ext :: seen) } := by
          simp only [OrderSlot.advance, hc, if_true, hmem, if_false]
        rw [hadv]
        exact {
          counted := inv.counted
          sound := inv.sound
          ordered := inv.ordered
          pending := by
            intro buf2 seen2 h
            simp only [Option.some.injEq, Prod.mk.injEq] at h
            obtain ⟨rfl, rfl⟩ := h
            refine ⟨List.nodup_cons.mpr ⟨hmem, hnd⟩, ⟨P, ext, rfl⟩, ?_, hbelow⟩
            intro w
            rw [hmemr w, List.mem_cons]
            exact or_comm
          empty := by intro h; cases h }
    · have hadv : (s.advance (ext :: suf)).1 =
          { s.emit buf seen.length with current := some (suf, [ext]) } := by
        simp only [OrderSlot.advance, hc, hsame, if_false]
      rw [hadv]
      have hlt : lex_lt buf.reverse suf.reverse = true :=
        tail_lt e ext buf suf (by rw [hbuf, hsuf]) (hPr _ hlP) (fun h => hsame h.symm)
      have hQne : ∀ w, (w :: buf) ∉ Q := by
        intro w hw
        have := tail_lt ext w suf buf (by rw [hbuf, hsuf]) (hrQ _ hw) hsame
        exact not_lt_both _ _ hlt this
      have hPne : ∀ w, (w :: suf) ∉ P := by
        intro w hw
        rw [hP] at hw hpwP
        rcases List.mem_append.mp hw with hw | hw
        · have hxl : lex_lt (w :: suf).reverse (e :: buf).reverse = true :=
            (List.pairwise_append.mp hpwP).2.2 _ hw _ (by simp)
          have := tail_lt w e suf buf (by rw [hbuf, hsuf]) hxl hsame
          exact not_lt_both _ _ hlt this
        · simp only [List.mem_singleton, List.cons.injEq] at hw
          exact hsame hw.2
      exact {
        counted := by
          intro g hg
          rw [OrderSlot.emit_written] at hg
          rcases List.mem_append.mp hg with hg | hg
          · exact inv.counted g hg
          · simp only [List.mem_singleton] at hg
            subst hg
            refine ⟨seen, hnd, rfl, ?_⟩
            intro w
            rw [hseen w]
            constructor
            · exact fun h => hPin _ h
            · intro h
              rw [hin] at h
              rcases List.mem_append.mp h with h | h
              · exact h
              · rcases List.mem_cons.mp h with h | h
                · simp only [List.cons.injEq] at h
                  exact absurd h.2.symm hsame
                · exact absurd h (hQne w)
        sound := by
          intro g hg
          rw [OrderSlot.emit_written] at hg
          rcases List.mem_append.mp hg with hg | hg
          · exact inv.sound g hg
          · simp only [List.mem_singleton] at hg
            subst hg
            exact ⟨e, hPin _ hlP⟩
        ordered := by
          rw [OrderSlot.emit_written]
          unfold words_of
          rw [List.map_append, List.pairwise_append]
          refine ⟨inv.ordered, by simp, ?_⟩
          intro a ha b hb
          simp only [List.map_cons, List.map_nil, List.mem_singleton] at hb
          subst hb
          obtain ⟨g, hg, rfl⟩ := List.mem_map.mp ha
          exact hbelow g hg
        pending := by
          intro buf2 seen2 h
          simp only [Option.some.injEq, Prod.mk.injEq] at h
          obtain ⟨rfl, rfl⟩ := h
          refine ⟨by simp, ⟨P, ext, rfl⟩, ?_, ?_⟩
          · intro w
            simp only [List.mem_singleton, List.mem_append, List.cons.injEq, and_true]
            constructor
            · exact Or.inr
            · rintro (h | h)
              · exact absurd h (hPne w)
              · exact h
          · intro g hg
            rw [OrderSlot.emit_written] at hg
            rcases List.mem_append.mp hg with hg | hg
            · exact lex_lt_trans _ _ _ (hbelow g hg) hlt
            · simp only [List.mem_singleton] at hg
              subst hg
              exact hlt
        empty := by intro h; cases h }

theorem slot_inv_feed (k : Nat) (X : List (List Nat))
    (hlen : ∀ x ∈ X, x.length = k + 1)
    (hsorted : X.Pairwise (fun a b => lex_lt a.reverse b.reverse = true))
    (Q P : List (List Nat)) (s : OrderSlot) (hin : X = P ++ Q) (inv : SlotInv X P s) :
    SlotInv X X (s.feed Q).1 := by
  induction Q generalizing P s with
  | nil =>
    simp only [List.append_nil] at hin
    subst hin
    exact inv
  | cons r Q ih =>
    simp only [OrderSlot.feed]
    exact ih (P ++ [r]) (s.advance r).1 (by simp [hin])
      (slot_inv_advance k X P Q r hin hlen hsorted s inv)

theorem slot_finish_spec (X : List (List Nat)) (s : OrderSlot) (inv : SlotInv X X s) :
    LevelSpec X s.finish.1.written := by
  cases hc : s.current with
  | none =>
    have hw : s.finish.1.written = s.written := by simp only [OrderSlot.finish, hc]
    rw [hw]
    exact { counted := inv.counted, sound := inv.sound, ordered := inv.ordered }
  | some cur =>
    obtain ⟨buf, seen⟩ := cur
    have hw : s.finish.1.written = s.written ++ [s.finished buf seen.length] := by
      simp only [OrderSlot.finish, hc, OrderSlot.emit_written]
    rw [hw]
    obtain ⟨hnd, ⟨P2, e, hP⟩, hseen, hbelow⟩ := inv.pending buf seen hc
    exact {
      counted := by
        intro g hg
        rcases List.mem_append.mp hg with hg | hg
        · exact inv.counted g hg
        · simp only [List.mem_singleton] at hg
          subst hg
          exact ⟨seen, hnd, rfl, hseen⟩
      sound := by
        intro g hg
        rcases List.mem_append.mp hg with hg | hg
        · exact inv.sound g hg
        · simp only [List.mem_singleton] at hg
          subst hg
          refine ⟨e, ?_⟩
          show (e :: buf) ∈ X
          rw [hP]
          simp
      ordered := by
        unfold words_of
        rw [List.map_append, List.pairwise_append]
        refine ⟨inv.ordered, by simp, ?_⟩
        intro a ha b hb
        simp only [List.map_cons, List.map_nil, List.mem_singleton] at hb
        subst hb
        obtain ⟨g, hg, rfl⟩ := List.mem_map.mp ha
        exact hbelow g hg }

/-- One order, started empty, that consumes a stream in strict suffix order of
records of `k + 1` words and is finished. -/
theorem level_spec (k : Nat) (s : OrderSlot) (hw : s.written = []) (hc : s.current = none)
    (X : List (List Nat)) (hlen : ∀ x ∈ X, x.length = k + 1)
    (hsorted : X.Pairwise (fun a b => lex_lt a.reverse b.reverse = true)) :
    LevelSpec X (s.feed X).1.finish.1.written :=
  slot_finish_spec X _
    (slot_inv_feed k X hlen hsorted X [] _ rfl (slot_inv_empty X s hw hc))

/-! ## What an order hands down -/

theorem handed_down_eq (e : Option WrittenRecord) :
    handed_down e = words_of (surviving e.toList) := by
  cases e with
  | none => rfl
  | some g =>
    by_cases hp : g.pruned = true
    · simp [handed_down, words_of, surviving, hp]
    · simp [handed_down, words_of, surviving, hp]

theorem words_surviving_append (a b : List WrittenRecord) :
    words_of (surviving (a ++ b)) = words_of (surviving a) ++ words_of (surviving b) := by
  simp [words_of, surviving]

theorem advance_written (s : OrderSlot) (cur : List Nat) :
    (s.advance cur).1.written = s.written ++ (s.advance cur).2.toList := by
  unfold OrderSlot.advance
  cases cur with
  | nil => simp
  | cons ext suf =>
    cases hc : s.current with
    | none => simp
    | some c =>
      obtain ⟨buf, seen⟩ := c
      by_cases h1 : suf = buf
      · by_cases h2 : ext ∈ seen
        · simp [h1, h2]
        · simp [h1, h2]
      · simp [h1, OrderSlot.emit_written]

theorem finish_written (s : OrderSlot) :
    s.finish.1.written = s.written ++ s.finish.2.toList := by
  unfold OrderSlot.finish
  cases hc : s.current with
  | none => simp
  | some c =>
    obtain ⟨buf, seen⟩ := c
    simp [OrderSlot.emit_written]

theorem feed_handed (s : OrderSlot) (curs : List (List Nat)) :
    words_of (surviving (s.feed curs).1.written) =
      words_of (surviving s.written) ++ (s.feed curs).2 := by
  induction curs generalizing s with
  | nil => simp [OrderSlot.feed]
  | cons cur curs ih =>
    simp only [OrderSlot.feed]
    rw [ih, advance_written, words_surviving_append, handed_down_eq, List.append_assoc]

theorem finish_handed (s : OrderSlot) :
    words_of (surviving s.finish.1.written) =
      words_of (surviving s.written) ++ handed_down s.finish.2 := by
  rw [finish_written, words_surviving_append, handed_down_eq]

theorem feed_append (s : OrderSlot) (xs ys : List (List Nat)) :
    s.feed (xs ++ ys) = (((s.feed xs).1.feed ys).1, (s.feed xs).2 ++ ((s.feed xs).1.feed ys).2) := by
  induction xs generalizing s with
  | nil => simp [OrderSlot.feed]
  | cons x xs ih =>
    rw [List.cons_append]
    simp only [OrderSlot.feed]
    rw [ih]
    simp only [List.append_assoc]

theorem lower_feed_nil (slots : List OrderSlot) : lower_feed slots [] = slots := by
  induction slots with
  | nil => rfl
  | cons s rest ih => simp [lower_feed, OrderSlot.feed, ih]

theorem lower_feed_append (slots : List OrderSlot) (xs ys : List (List Nat)) :
    lower_feed (lower_feed slots xs) ys = lower_feed slots (xs ++ ys) := by
  induction slots generalizing xs ys with
  | nil => rfl
  | cons s rest ih =>
    simp only [lower_feed, feed_append, ih]

theorem lower_finish_feed (slots : List OrderSlot) (xs ys : List (List Nat)) :
    lower_finish (lower_feed slots xs) ys = lower_finish slots (xs ++ ys) := by
  induction slots generalizing xs ys with
  | nil => rfl
  | cons s rest ih =>
    simp only [lower_feed, lower_finish, feed_append, ih, List.append_assoc]

theorem lower_finish_length (slots : List OrderSlot) (xs : List (List Nat)) :
    (lower_finish slots xs).length = slots.length := by
  induction slots generalizing xs with
  | nil => rfl
  | cons s rest ih => simp [lower_finish, ih]

theorem lower_finish_cons (s : OrderSlot) (rest : List OrderSlot) (X : List (List Nat))
    (hw : s.written = []) :
    lower_finish (s :: rest) X =
      (s.feed X).1.finish.1 ::
        lower_finish rest (words_of (surviving (s.feed X).1.finish.1.written)) := by
  rw [finish_handed, feed_handed, hw]
  simp [lower_finish, words_of, surviving]

/-! ## The whole pass, order by order -/

theorem mem_left_extensions (recs : List WrittenRecord) (g : List Nat) (w : Nat) :
    w ∈ left_extensions recs g ↔ (w :: g) ∈ words_of recs := by
  unfold left_extensions words_of
  rw [List.mem_dedup, List.mem_filterMap, List.mem_map]
  constructor
  · rintro ⟨h, hh, hw⟩
    refine ⟨h, hh, ?_⟩
    cases hws : h.words with
    | nil => simp [hws] at hw
    | cons v t =>
      simp only [hws] at hw
      by_cases ht : t = g
      · simp only [ht, if_true, Option.some.injEq] at hw
        rw [ht, hw]
      · simp [ht] at hw
  · rintro ⟨h, hh, hw⟩
    exact ⟨h, hh, by simp [hw]⟩

theorem surviving_ordered (W : List WrittenRecord)
    (h : (words_of W).Pairwise (fun a b => lex_lt a.reverse b.reverse = true)) :
    (words_of (surviving W)).Pairwise (fun a b => lex_lt a.reverse b.reverse = true) := by
  refine List.Pairwise.sublist ?_ h
  unfold words_of surviving
  exact List.Sublist.map _ (List.filter_sublist _)

theorem mem_words_surviving (W : List WrittenRecord) (x : List Nat)
    (h : x ∈ words_of (surviving W)) : ∃ g ∈ W, g.words = x := by
  unfold words_of surviving at h
  obtain ⟨g, hg, hx⟩ := List.mem_map.mp h
  exact ⟨g, (List.mem_filter.mp hg).1, hx⟩

/-- Along the lower orders, highest first, every written count is the number of
distinct one-word left-extensions among the surviving records of the stream
just above. -/
theorem lower_finish_counts (slots : List OrderSlot) (top : List WrittenRecord)
    (hinit : ∀ s ∈ slots, s.written = [] ∧ s.current = none)
    (hlen : ∀ x ∈ words_of (surviving top), x.length = slots.length + 1)
    (hsorted : (words_of (surviving top)).Pairwise
      (fun a b => lex_lt a.reverse b.reverse = true)) :
    ∀ (i : Nat) (a : List WrittenRecord) (b : OrderSlot),
      (top :: (lower_finish slots (words_of (surviving top))).map
        (fun s => s.written))[i]? = some a →
      (lower_finish slots (words_of (surviving top)))[i]? = some b →
      ∀ g ∈ b.written, g.count = (left_extensions (surviving a) g.words).length := by
  induction slots generalizing top with
  | nil =>
    intro i a b _ hb
    simp [lower_finish] at hb
  | cons s rest ih =>
    obtain ⟨hw, hc⟩ := hinit s (List.mem_cons_self _ _)
    have spec := level_spec (rest.length + 1) s hw hc (words_of (surviving top))
      (by simpa using hlen) hsorted
    rw [lower_finish_cons s rest _ hw]
    intro i a b ha hb
    cases i with
    | zero =>
      simp only [List.getElem?_cons_zero, Option.some.injEq] at ha hb
      subst ha
      subst hb
      intro g hg
      obtain ⟨seen, hnd, hcount, hseen⟩ := spec.counted g hg
      have hnd2 : (left_extensions (surviving top) g.words).Nodup := by
        unfold left_extensions
        exact List.nodup_dedup _
      rw [hcount]
      apply List.Perm.length_eq
      rw [List.perm_ext_iff_of_nodup hnd hnd2]
      intro w
      rw [hseen w, mem_left_extensions]
    | succ j =>
      simp only [List.map_cons, List.getElem?_cons_succ] at ha hb
      refine ih _ (fun t ht => hinit t (List.mem_cons_of_mem _ ht)) ?_
        (surviving_ordered _ spec.ordered) j a b ha hb
      intro x hx
      obtain ⟨g, hg, rfl⟩ := mem_words_surviving _ x hx
      obtain ⟨e, he⟩ := spec.sound g hg
      have := hlen _ he
      simpa using this

theorem foldl_step_full (input : List NGramRecord) (st : EngineState) :
    (input.foldl EngineState.step st).full.written =
      st.full.written ++ input.map (fun r => st.full.finished r.words r.count) := by
  induction input generalizing st with
  | nil => simp
  | cons r rs ih =>
    rw [List.foldl_cons, ih]
    simp [EngineState.step, OrderSlot.emit, OrderSlot.finished]

theorem foldl_step_lower (input : List NGramRecord) (st : EngineState) :
    (input.foldl EngineState.step st).lower =
      lower_feed st.lower
        (words_of (surviving (input.map (fun r => st.full.finished r.words r.count)))) := by
  induction input generalizing st with
  | nil => simp [lower_feed_nil, words_of, surviving]
  | cons r rs ih =>
    rw [List.foldl_cons, ih]
    have hfin : ∀ w c, (st.step r).full.finished w c = st.full.finished w c :=
      fun _ _ => rfl
    simp only [hfin]
    rw [show (st.step r).lower = lower_feed st.lower
      (handed_down (some (st.full.finished r.words r.count))) from rfl,
      lower_feed_append, handed_down_eq, ← words_surviving_append]
    rfl

theorem init_lower_empty (counts_threshold : List Nat) (N : Nat) :
    ∀ s ∈ (EngineState.init counts_threshold N).lower, s.written = [] ∧ s.current = none := by
  intro s hs
  simp only [EngineState.init, List.mem_map] at hs
  obtain ⟨i, _, rfl⟩ := hs
  exact ⟨rfl, rfl⟩

theorem init_lower_length (counts_threshold : List Nat) (N : Nat) :
    (EngineState.init counts_threshold N).lower.length = N - 1 := by
  simp [EngineState.init]

theorem adjust_pass_full (counts_threshold : List Nat) (N : Nat)
    (input : List NGramRecord) :
    (adjust_pass counts_threshold N input).full.written =
      input.map (fun r => WrittenRecord.mk r.words r.count
        (pruned_by (counts_threshold.getD (N - 1) 0) r.count)) := by
  simp only [adjust_pass, foldl_step_full]
  simp [EngineState.init, OrderSlot.init, OrderSlot.finished]

theorem adjust_pass_lower (counts_threshold : List Nat) (N : Nat)
    (input : List NGramRecord) :
    (adjust_pass counts_threshold N input).lower =
      lower_finish (EngineState.init counts_threshold N).lower
        (words_of (surviving (adjust_pass counts_threshold N input).full.written)) := by
  simp only [adjust_pass, foldl_step_lower, foldl_step_full, lower_finish_feed,
    List.append_nil]
  simp [EngineState.init, OrderSlot.init]

/-- The streams of two neighbouring orders `k + 1` and `k`, for `1 <= k < N`, as
entries of the list of lower slots (highest order first) headed by the
order-N stream. -/
theorem records_neighbours (st : EngineState) (N k : Nat) (hk1 : 1 ≤ k) (hkN : k < N)
    (hlen : st.lower.length = N - 1) :
    ∃ b, st.lower[N - 1 - k]? = some b ∧ st.records k = b.written ∧
      (st.full.written :: st.lower.map (fun s => s.written))[N - 1 - k]? =
        some (st.records (k + 1)) := by
  have hi : N - 1 - k < st.lower.length := by omega
  have hb : st.lower[N - 1 - k]? = some st.lower[N - 1 - k] := List.getElem?_eq_getElem hi
  refine ⟨st.lower[N - 1 - k], hb, ?_, ?_⟩
  · have hk0 : k ≠ 0 := by omega
    have h1 : st.orders[k - 1]? = some st.lower[N - 1 - k] := by
      unfold EngineState.orders
      rw [List.getElem?_append_left (by simp; omega),
        List.getElem?_reverse' (k - 1) (N - 1 - k) (by omega), hb]
    simp only [EngineState.records, hk0, if_false, h1]
  · have hk0 : k + 1 ≠ 0 := by omega
    by_cases hfull : k = N - 1
    · have h0 : N - 1 - k = 0 := by omega
      have h1 : st.orders[k + 1 - 1]? = some st.full := by
        unfold EngineState.orders
        rw [List.getElem?_append_right (by simp; omega)]
        simp [hlen, hfull]
      simp only [EngineState.records, hk0, if_false, h1, h0, List.getElem?_cons_zero]
    · obtain ⟨j, hj⟩ : ∃ j, N - 1 - k = j + 1 := ⟨N - 1 - k - 1, by omega⟩
      have hjlt : j < st.lower.length := by omega
      have h1 : st.orders[k + 1 - 1]? = some st.lower[j] := by
        unfold EngineState.orders
        rw [List.getElem?_append_left (by simp; omega),
          List.getElem?_reverse' (k + 1 - 1) j (by omega), List.getElem?_eq_getElem hjlt]
      simp only [EngineState.records, hk0, if_false, h1, hj, List.getElem?_cons_succ,
        List.getElem?_map, List.getElem?_eq_getElem hjlt, Option.map_some']

/-! ## Adjusted counts -/

theorem run_streams (counts_threshold : List Nat) (N : Nat) (input : List NGramRecord)
    (out : RunOutput) (h : AdjustCounts.Run counts_threshold N input = .ok out) :
    out.streams = (adjust_pass counts_threshold N input).orders.map (fun s => s.written) := by
  simp only [AdjustCounts.Run] at h
  split at h
  · cases h
  · injection h with h
    rw [← h]

/-- C8: on a unique suffix-sorted order-N stream, for every order `k` in `[1, N-1]`
and every k-gram `g` written by the pass of `AdjustCounts::Run` (surviving or
not), the count written for `g` is the number of distinct one-word
left-extensions of `g` among the order-(k+1) records that were not pruned; the
streams a successful run hands over are the ones written by the pass.  For the
order-3 stream `(x,y,z):1, (p,y,z):1, (x,y,w):1` without pruning the adjusted
count of `(y,z)` is 2 and that of `(y,w)` is 1. -/
theorem adjusted_count_is_surviving_extension_count (counts_threshold : List Nat) (N : Nat)
    (input : List NGramRecord) (hsorted : suffix_sorted N input) (k : Nat)
    (hk1 : 1 ≤ k) (hkN : k < N) (g : WrittenRecord)
    (hg : g ∈ (adjust_pass counts_threshold N input).records k) :
    g.count =
      (left_extensions (surviving ((adjust_pass counts_threshold N input).records (k + 1)))
        g.words).length ∧
    (∀ out, AdjustCounts.Run counts_threshold N input = .ok out →
      out.streams = (adjust_pass counts_threshold N input).orders.map (fun s => s.written)) ∧
    (adjust_pass [0, 0, 0] 3 scenario_a).records 2 = [⟨[3, 4], 2, false⟩, ⟨[3, 5], 1, false⟩] := by
  refine ⟨?_, run_streams counts_threshold N input, by decide⟩
  have hlow := adjust_pass_lower counts_threshold N input
  have hlen : (adjust_pass counts_threshold N input).lower.length = N - 1 := by
    rw [hlow, lower_finish_length, init_lower_length]
  obtain ⟨b, hb, hrk, ha⟩ :=
    records_neighbours (adjust_pass counts_threshold N input) N k hk1 hkN hlen
  rw [hrk] at hg
  have hfull := adjust_pass_full counts_threshold N input
  have hwords : words_of (adjust_pass counts_threshold N input).full.written =
      input.map (fun r => r.words) := by
    rw [hfull]
    simp [words_of, Function.comp_def]
  have hlenX : ∀ x ∈ words_of (surviving (adjust_pass counts_threshold N input).full.written),
      x.length = (EngineState.init counts_threshold N).lower.length + 1 := by
    intro x hx
    obtain ⟨h, hh, rfl⟩ := mem_words_surviving _ x hx
    rw [hfull] at hh
    obtain ⟨r, hr, rfl⟩ := List.mem_map.mp hh
    rw [init_lower_length]
    have := hsorted.1 r hr
    simp only [this]
    omega
  have hsortedX : (words_of (surviving (adjust_pass counts_threshold N input).full.written)).Pairwise
      (fun a b => lex_lt a.reverse b.reverse = true) := by
    apply surviving_ordered
    rw [hwords, List.pairwise_map]
    exact hsorted.2
  rw [hlow] at hb ha
  exact lower_finish_counts _ _ (init_lower_empty counts_threshold N) hlenX hsortedX
    (N - 1 - k) _ b ha hb g hg

theorem adjusted_count_is_surviving_extension_count_witness :
    WrittenRecord.count ⟨[6], 2, false⟩ =
      (left_extensions (surviving ((adjust_pass [0, 1] 2 pruned_bigrams).records (1 + 1)))
        (WrittenRecord.words ⟨[6], 2, false⟩)).length ∧
    (∀ out, AdjustCounts.Run [0, 1] 2 pruned_bigrams = .ok out →
      out.streams = (adjust_pass [0, 1] 2 pruned_bigrams).orders.map (fun s => s.written)) ∧
    (adjust_pass [0, 0, 0] 3 scenario_a).records 2 = [⟨[3, 4], 2, false⟩, ⟨[3, 5], 1, false⟩] :=
  adjusted_count_is_surviving_extension_count [0, 1] 2 pruned_bigrams ⟨by decide, by decide⟩ 1
    (by decide) (by decide) ⟨[6], 2, false⟩ (by decide)

/-! ## Discounts -/

theorem estimate_discount_cases (h : Histogram) :
    estimate_discount h = .error .BadDiscountException ∨
    (estimate_discount h = .ok (discount_formula h) ∧
      0 ≤ (discount_formula h).D1 ∧ (discount_formula h).D1 ≤ (discount_formula h).D2 ∧
      (discount_formula h).D2 ≤ (discount_formula h).D3plus) := by
  unfold estimate_discount
  by_cases hz : h.n1 = 0 ∨ h.n2 = 0 ∨ h.n3 = 0
  · left
    rw [if_pos hz]
  · by_cases hv : 0 ≤ (discount_formula h).D1 ∧
        (discount_formula h).D1 ≤ (discount_formula h).D2 ∧
        (discount_formula h).D2 ≤ (discount_formula h).D3plus
    · right
      rw [if_neg hz]
      exact ⟨if_pos hv, hv⟩
    · left
      rw [if_neg hz]
      exact if_neg hv

theorem estimate_discount_n1_zero (h : Histogram) (hn1 : h.n1 = 0) :
    estimate_discount h = .error .BadDiscountException := by
  unfold estimate_discount
  rw [if_pos (Or.inl hn1)]

theorem estimate_discounts_fails (hs : List Histogram) (h : Histogram) (hmem : h ∈ hs)
    (hbad : estimate_discount h = .error .BadDiscountException) :
    estimate_discounts hs = .error .BadDiscountException := by
  induction hs with
  | nil => cases hmem
  | cons g gs ih =>
    unfold estimate_discounts
    rcases estimate_discount_cases g with hg | ⟨hg, _⟩
    · rw [hg]
    · rw [hg]
      rcases List.mem_cons.mp hmem with rfl | hmem2
      · rw [hg] at hbad
        cases hbad
      · simp only [ih hmem2]

/-- C9: the discount computation on a finished histogram (n1, n2, n3, n4) either
fails with BadDiscountException or returns the unclamped values of the formulas, which
then satisfy 0 <= D1 <= D2 <= D3+; it fails with BadDiscountException whenever n1 = 0;
and when the finished histogram of some order of a run has n1 = 0 (whether or
not the order has surviving records), `AdjustCounts.Run` fails with BadDiscountException and
produces no counts and no discounts. -/
theorem degenerate_histogram_fails (counts_threshold : List Nat) (N : Nat)
    (input : List NGramRecord) (s : OrderSlot)
    (hs : s ∈ (adjust_pass counts_threshold N input).orders)
    (hn1 : s.histogram.n1 = 0) :
    AdjustCounts.Run counts_threshold N input = .error .BadDiscountException ∧
    (∀ out, AdjustCounts.Run counts_threshold N input ≠ .ok out) ∧
    (∀ h : Histogram, h.n1 = 0 → estimate_discount h = .error .BadDiscountException) ∧
    ∀ h : Histogram,
      estimate_discount h = .error .BadDiscountException ∨
      (estimate_discount h = .ok (discount_formula h) ∧
        0 ≤ (discount_formula h).D1 ∧ (discount_formula h).D1 ≤ (discount_formula h).D2 ∧
        (discount_formula h).D2 ≤ (discount_formula h).D3plus) := by
  have hrun : AdjustCounts.Run counts_threshold N input = .error .BadDiscountException := by
    have hmem : s.histogram ∈
        (adjust_pass counts_threshold N input).orders.map (fun s => s.histogram) :=
      List.mem_map.mpr ⟨s, hs, rfl⟩
    have := estimate_discounts_fails _ s.histogram hmem (estimate_discount_n1_zero _ hn1)
    simp only [AdjustCounts.Run, this]
  refine ⟨hrun, ?_, estimate_discount_n1_zero, estimate_discount_cases⟩
  intro out hout
  rw [hrun] at hout
  cases hout

theorem degenerate_histogram_fails_witness :
    AdjustCounts.Run [0] 1 [⟨[1], 2⟩, ⟨[2], 2⟩] = .error .BadDiscountException ∧
    (∀ out, AdjustCounts.Run [0] 1 [⟨[1], 2⟩, ⟨[2], 2⟩] ≠ .ok out) ∧
    (∀ h : Histogram, h.n1 = 0 → estimate_discount h = .error .BadDiscountException) ∧
    ∀ h : Histogram,
      estimate_discount h = .error .BadDiscountException ∨
      (estimate_discount h = .ok (discount_formula h) ∧
        0 ≤ (discount_formula h).D1 ∧ (discount_formula h).D1 ≤ (discount_formula h).D2 ∧
        (discount_formula h).D2 ≤ (discount_formula h).D3plus) :=
  degenerate_histogram_fails [0] 1 [⟨[1], 2⟩, ⟨[2], 2⟩]
    { order := 1, threshold := 0, current := none,
      written := [⟨[1], 2, false⟩, ⟨[2], 2, false⟩],
      histogram := ⟨0, 2, 0, 0⟩, count := 2, count_pruned := 2 }
    (by decide) rfl

end KenLM
